import Mathlib

/-!
Shallow embedding of the `Fixed` ring buffer
(`src/ringbuffer_1/ringbuffer_fixed.rs`).

The buffer is the pair `(first, data)`; the generic storage parameter `S`
is modelled by its exposed slice (`Slice::slice`), a `List α`.  Operations
that can panic in Rust (checked slice indexing, `assert!`, `split_at` with
an out-of-range midpoint, `%` by zero) or that perform an unchecked access
whose out-of-bounds case is undefined behavior (`get_unchecked_mut` in
`push`) are modelled in `Option`, with `none` for the panic/UB case.
-/

variable {α : Type}

/-- The ring buffer state: cursor `first` and backing storage `data`
(the slice exposed by the storage parameter `S`). -/
structure Fixed (α : Type) where
  first : Nat
  data : List α
  deriving DecidableEq

/-- Rust `Fixed::len`: length of the backing slice. -/
def Fixed.len (rb : Fixed α) : Nat :=
  rb.data.length

/-- Rust `Fixed::push`: computes `next_index` (wrapping `first + 1` to `0`
when it reaches `len`), replaces the element at slot `first` by `item`
via an unchecked in-place swap, advances `first`, and returns the old
element.  The unchecked access is `none` when `first` is out of bounds. -/
def Fixed.push (rb : Fixed α) (item : α) : Option (α × Fixed α) :=
  let next_index := if rb.first + 1 = rb.len then 0 else rb.first + 1
  match rb.data[rb.first]? with
  | none => none
  | some old_element => some (old_element, ⟨next_index, rb.data.set rb.first item⟩)

/-- Rust `Fixed::get`: `wrapped_index = (first + index) & len` (bitwise
AND, as written in the source), then checked slice indexing, which panics
(`none`) when `wrapped_index` is out of bounds. -/
def Fixed.get (rb : Fixed α) (index : Nat) : Option α :=
  let wrapped_index := (rb.first + index) &&& rb.len
  rb.data[wrapped_index]?

/-- Rust `Fixed::get_mut`: same wrapped index as `get`; modelled as the
referenced value together with the write-back function. -/
def Fixed.get_mut (rb : Fixed α) (index : Nat) : Option (α × (α → Fixed α)) :=
  let wrapped_index := (rb.first + index) &&& rb.len
  match rb.data[wrapped_index]? with
  | none => none
  | some x => some (x, fun v => ⟨rb.first, rb.data.set wrapped_index v⟩)

/-- Rust `Fixed::set_first`: `first = index % len`; Rust `%` panics when
`len = 0`, hence `none` there. -/
def Fixed.set_first (rb : Fixed α) (index : Nat) : Option (Fixed α) :=
  if rb.len = 0 then none
  else some ⟨index % rb.len, rb.data⟩

/-- Rust `Fixed::slices`: `split_at(first)` gives `(end, start)`, returned
as `(start, end)`; `split_at` panics (`none`) when `first > len`. -/
def Fixed.slices (rb : Fixed α) : Option (List α × List α) :=
  if rb.first ≤ rb.len then
    some (rb.data.drop rb.first, rb.data.take rb.first)
  else none

/-- Rust `Fixed::iter_loop`: the infinite stream
`data.iter().cycle().skip(first)`; its `j`-th element is
`data[(first + j) % len]` (and the stream is empty when `data` is, which
the `none` of indexing into `[]` captures, since `n % 0 = n`). -/
def Fixed.iter_loop (rb : Fixed α) (j : Nat) : Option α :=
  rb.data[(rb.first + j) % rb.len]?

/-- Rust `Fixed::iter`: `iter_loop().take(len)`, the first `len` elements
of the cyclic stream. -/
def Fixed.iter (rb : Fixed α) : List α :=
  (List.range rb.len).filterMap rb.iter_loop

/-- Rust `Fixed::from_raw_parts`: `assert!(first < data.len())`, then the
pair; the failed assertion panics (`none`). -/
def Fixed.from_raw_parts (first : Nat) (data : List α) : Option (Fixed α) :=
  if first < data.length then some ⟨first, data⟩ else none

/-- Rust `Fixed::from_raw_parts_unchecked`: the pair with no validation. -/
def Fixed.from_raw_parts_unchecked (first : Nat) (data : List α) : Fixed α :=
  ⟨first, data⟩

/-- Rust `Fixed::into_raw_parts`: decomposes the buffer into its pair. -/
def Fixed.into_raw_parts (rb : Fixed α) : Nat × List α :=
  (rb.first, rb.data)

/-- Rust `impl From<S> for Fixed<S>`: `from_raw_parts(0, data)`. -/
def Fixed.from_data (data : List α) : Option (Fixed α) :=
  Fixed.from_raw_parts 0 data

/-- Rust `impl FromIterator for Fixed`: collect the iterator into the
storage (for list-like storage, the list of yielded elements itself),
then `Self::from(data)`. -/
def Fixed.from_iter (xs : List α) : Option (Fixed α) :=
  Fixed.from_data xs

/-- Rust `impl Extend for Fixed`, with the evicted elements kept: pushes
`items` in order, returning the list of evicted elements and the final
state (`none` as soon as one `push` hits undefined behavior). -/
def Fixed.pushAll (rb : Fixed α) (items : List α) : Option (List α × Fixed α) :=
  match items with
  | [] => some ([], rb)
  | x :: rest =>
    match rb.push x with
    | none => none
    | some (old, rb1) =>
      match rb1.pushAll rest with
      | none => none
      | some (olds, rb2) => some (old :: olds, rb2)

/-- Dropping strictly past an updated slot ignores the update. -/
theorem drop_set_of_lt (l : List α) (i j : Nat) (a : α) (h : i < j) :
    (l.set i a).drop j = l.drop j := by
  apply List.ext_getElem?
  intro k
  rw [List.getElem?_drop, List.getElem?_drop, List.getElem?_set_ne (by omega)]

/-- Taking one slot past an update captures the updated value. -/
theorem take_set_succ (l : List α) (i : Nat) (a : α) (h : i < l.length) :
    (l.set i a).take (i + 1) = l.take i ++ [a] := by
  have hl : (l.take i).length = i := by
    rw [List.length_take]
    omega
  have ht := @List.take_append _ (l.take i) (a :: l.drop (i + 1)) 1
  rw [hl] at ht
  rw [List.set_eq_take_cons_drop a h, ht]
  simp

/-- One `push` on an in-bounds cursor, written as an equation. -/
theorem push_eq (f : Nat) (data : List α) (x : α) (h1 : f < data.length) :
    Fixed.push ⟨f, data⟩ x =
      some (data[f], ⟨if f + 1 = data.length then 0 else f + 1, data.set f x⟩) := by
  simp [Fixed.push, Fixed.len, List.getElem?_eq_getElem h1]

/-- Key lemma: pushing `xs` onto state `(f, data)` when the written run
`[f, f + xs.length)` stays within the storage evicts the previous
occupants of those slots in order, writes `xs` over them, and advances
`first` to `f + xs.length`, wrapped to `0` when it reaches `len`. -/
theorem pushAll_eq (xs : List α) : ∀ (f : Nat) (data : List α),
    f < data.length → f + xs.length ≤ data.length →
    Fixed.pushAll ⟨f, data⟩ xs =
      some ((data.drop f).take xs.length,
        ⟨if f + xs.length = data.length then 0 else f + xs.length,
         data.take f ++ xs ++ data.drop (f + xs.length)⟩) := by
  induction xs with
  | nil =>
    intro f data h1 _
    have hne : f ≠ data.length := by omega
    simp [Fixed.pushAll, hne]
  | cons x rest ih =>
    intro f data h1 h2
    simp only [Fixed.pushAll, push_eq f data x h1]
    by_cases hB : f + 1 = data.length
    · have hr : rest = [] := by
        have : rest.length = 0 := by
          simp at h2
          omega
        exact List.eq_nil_of_length_eq_zero this
      subst hr
      rw [if_pos hB]
      have hc : f + ([x] : List α).length = data.length := by
        simpa using hB
      simp only [Fixed.pushAll, if_pos hc]
      rw [List.set_eq_take_cons_drop x h1]
      simp
      rw [List.drop_eq_getElem_cons h1]
      rfl
    · rw [if_neg hB]
      have hlt : f + 1 < data.length := by
        simp at h2
        omega
      have ihh := ih (f + 1) (data.set f x) (by simpa using hlt)
        (by simp; simp at h2; omega)
      rw [drop_set_of_lt data f (f + 1) x (by omega),
        drop_set_of_lt data f (f + 1 + rest.length) x (by omega),
        take_set_succ data f x h1, List.length_set] at ihh
      simp only [ihh]
      have hc : f + 1 + rest.length = f + (x :: rest).length := by
        simp
        omega
      rw [hc]
      simp [List.append_assoc]
      rw [List.drop_eq_getElem_cons h1, List.take_succ_cons]

/-- The finite iteration visits `data.drop first ++ data.take first`:
the cyclic stream truncated to `len` elements is the storage rotated so
that slot `first` comes first. -/
theorem iter_eq_rotate (rb : Fixed α) (h : rb.first < rb.len) :
    rb.iter = rb.data.drop rb.first ++ rb.data.take rb.first := by
  obtain ⟨f, data⟩ := rb
  have h1 : f < data.length := h
  have hN : 0 < data.length := by omega
  have hfun : Fixed.iter_loop ⟨f, data⟩ =
      some ∘ (fun j => data.get ⟨(f + j) % data.length, Nat.mod_lt _ hN⟩) := by
    funext j
    simp [Fixed.iter_loop, Fixed.len, List.getElem?_eq_getElem (Nat.mod_lt _ hN)]
  rw [Fixed.iter, hfun, List.filterMap_eq_map]
  apply List.ext_getElem
  · simp [Fixed.len]
    omega
  · intro i h₁ h₂
    have hiN : i < data.length := by simpa [Fixed.len] using h₁
    simp only [List.getElem_map, List.getElem_range, List.get_eq_getElem]
    rcases Nat.lt_or_ge i (data.length - f) with hc | hc
    · rw [List.getElem_append_left (by simp; omega)]
      simp only [List.getElem_drop]
      have hmod : (f + i) % data.length = f + i := Nat.mod_eq_of_lt (by omega)
      simp only [hmod]
    · rw [List.getElem_append_right (by simp; omega)]
      simp only [List.getElem_take, List.length_drop]
      have hmod : (f + i) % data.length = i - (data.length - f) := by
        rw [Nat.mod_eq_sub_mod (by omega), Nat.mod_eq_of_lt (by omega)]
        omega
      simp only [hmod]

/-- C3: a ring of length `N` built from `e0 .. e(N-1)` in logical order
(the `From` construction, `first = 0`) returns exactly `e0, e1, ...,
e(N-1)` in that order when fed `N` new elements, evicting the oldest
first; afterwards the storage holds the new elements. -/
theorem push_fifo (es fs : List α) (hpos : 0 < es.length)
    (hlen : fs.length = es.length) :
    Fixed.from_data es = some ⟨0, es⟩ ∧
    Fixed.pushAll ⟨0, es⟩ fs = some (es, ⟨0, fs⟩) := by
  constructor
  · simp [Fixed.from_data, Fixed.from_raw_parts, hpos]
  · rw [pushAll_eq fs 0 es hpos (by omega)]
    simp [hlen]

/-- C3 witness: the spec scenario, capacity 3 built from `[1, 2, 3]`,
pushing `[4, 5, 6]` returns `[1, 2, 3]`. -/
theorem push_fifo_witness :
    Fixed.from_data [1, 2, 3] = some ⟨0, [1, 2, 3]⟩ ∧
    Fixed.pushAll ⟨0, [1, 2, 3]⟩ [4, 5, 6] = some ([1, 2, 3], ⟨0, [4, 5, 6]⟩) :=
  push_fifo [1, 2, 3] [4, 5, 6] (by decide) (by decide)

/-- C4: one `push` on a valid state succeeds, keeps the length, moves
the element at each logical position `k` (`1 ≤ k < N`) to logical
position `k - 1`, and places the new element at logical position
`N - 1`, where logical position `k` is physical slot `(first + k) % N`,
i.e. the cyclic-stream accessor `iter_loop`. -/
theorem push_shifts_logical (rb : Fixed α) (x : α) (h : rb.first < rb.len) :
    ∃ old rb1, rb.push x = some (old, rb1) ∧
      rb1.len = rb.len ∧
      (∀ k, 1 ≤ k → k < rb.len → rb1.iter_loop (k - 1) = rb.iter_loop k) ∧
      rb1.iter_loop (rb.len - 1) = some x := by
  obtain ⟨f, data⟩ := rb
  have h1 : f < data.length := h
  rw [push_eq f data x h1]
  have hnext : (if f + 1 = data.length then 0 else f + 1) = (f + 1) % data.length := by
    split
    · rename_i hc
      rw [hc, Nat.mod_self]
    · rename_i hc
      rw [Nat.mod_eq_of_lt (by omega)]
  refine ⟨data[f], _, rfl, by simp [Fixed.len], ?_, ?_⟩
  · intro k hk1 hk2
    have hk : k < data.length := hk2
    simp only [Fixed.iter_loop, Fixed.len, List.length_set, hnext]
    rw [Nat.mod_add_mod]
    have hidx : f + 1 + (k - 1) = f + k := by omega
    rw [hidx]
    have hne : f ≠ (f + k) % data.length := by
      rcases Nat.lt_or_ge (f + k) data.length with hlt | hge
      · rw [Nat.mod_eq_of_lt hlt]
        omega
      · rw [Nat.mod_eq_sub_mod hge, Nat.mod_eq_of_lt (by omega)]
        omega
    rw [List.getElem?_set_ne hne]
  · simp only [Fixed.iter_loop, Fixed.len, List.length_set, hnext]
    rw [Nat.mod_add_mod]
    have hidx : f + 1 + (data.length - 1) = f + data.length := by omega
    rw [hidx, Nat.add_mod_right, Nat.mod_eq_of_lt h1]
    exact List.getElem?_set_self h1

/-- C4 witness at `first = 1`, `data = [5, 6, 7]`, pushing `9`. -/
theorem push_shifts_logical_witness :
    ∃ old rb1, (Fixed.mk 1 [5, 6, 7]).push 9 = some (old, rb1) ∧
      rb1.len = (Fixed.mk 1 [5, 6, 7]).len ∧
      (∀ k, 1 ≤ k → k < (Fixed.mk 1 [5, 6, 7]).len →
        rb1.iter_loop (k - 1) = (Fixed.mk 1 [5, 6, 7]).iter_loop k) ∧
      rb1.iter_loop ((Fixed.mk 1 [5, 6, 7]).len - 1) = some 9 :=
  push_shifts_logical (Fixed.mk 1 [5, 6, 7]) 9 (by decide)

/-- C5: concatenating the two slices returned by `slices` reproduces
exactly the sequence yielded by `iter`, for every value of `first` in
`[0, N)`. -/
theorem slices_concat_eq_iter (rb : Fixed α) (h : rb.first < rb.len) :
    (rb.slices).map (fun p => p.1 ++ p.2) = some rb.iter := by
  rw [Fixed.slices, if_pos (Nat.le_of_lt h)]
  simp [iter_eq_rotate rb h]

/-- C5 witness at `first = 2`, `data = [1, 2, 3, 4, 5]`. -/
theorem slices_concat_eq_iter_witness :
    ((Fixed.mk 2 [1, 2, 3, 4, 5]).slices).map (fun p => p.1 ++ p.2) =
      some (Fixed.mk 2 [1, 2, 3, 4, 5]).iter :=
  slices_concat_eq_iter (Fixed.mk 2 [1, 2, 3, 4, 5]) (by decide)

/-- C9: building a ring from a nonempty sequence along the FromIterator
path yields exactly the state obtained by starting from a default-filled
ring of the same length and applying `push` once per element in order;
those pushes evict exactly the placeholder defaults. -/
theorem from_iter_eq_push_build (xs : List α) (d : α) (h : xs ≠ []) :
    Fixed.from_iter xs =
      (Fixed.pushAll ⟨0, List.replicate xs.length d⟩ xs).map Prod.snd ∧
    (Fixed.pushAll ⟨0, List.replicate xs.length d⟩ xs).map Prod.fst =
      some (List.replicate xs.length d) := by
  have hpos : 0 < xs.length := List.length_pos.mpr h
  rw [pushAll_eq xs 0 (List.replicate xs.length d) (by simpa using hpos) (by simp)]
  constructor
  · simp [Fixed.from_iter, Fixed.from_data, Fixed.from_raw_parts, hpos]
  · simp

/-- C9 witness at the sequence `[4, 5]` with default `0`. -/
theorem from_iter_eq_push_build_witness :
    Fixed.from_iter [4, 5] =
      (Fixed.pushAll ⟨0, List.replicate (List.length [4, 5]) 0⟩ [4, 5]).map Prod.snd ∧
    (Fixed.pushAll ⟨0, List.replicate (List.length [4, 5]) 0⟩ [4, 5]).map Prod.fst =
      some (List.replicate (List.length [4, 5]) 0) :=
  from_iter_eq_push_build [4, 5] 0 (by decide)

/-- C1: on the valid state `first = 2`, `data = [10, 20, 30]` (so
`first < len`, `len > 0`) and the in-range index `i = 2`, `get` computes
`(2 + 2) &&& 3 = 0` and returns the element `10` in slot `0`, whereas
true modulo arithmetic gives slot `(2 + 2) % 3 = 1`, holding `20`;
moreover the in-range access `get 1` computes slot `(2 + 1) &&& 3 = 3`
and panics.  This evaluates the code at the failing input. -/
theorem get_bitmask_diverges_from_modulo :
    (Fixed.mk 2 [10, 20, 30]).get 2 = some 10 ∧
    (2 + 2) % 3 = 1 ∧
    [10, 20, 30][(2 + 2) % 3]? = some 20 ∧
    (Fixed.mk 2 [10, 20, 30]).get 1 = none := by
  decide

/-- C2 counterexample: on the valid state `first = 0`,
`data = [10, 20, 30]` the out-of-range index `i = 10 ≥ len = 3` is not
rejected: `get` silently returns the element in slot `10 &&& 3 = 2`
instead of trapping. -/
theorem get_out_of_range_not_rejected :
    (Fixed.mk 0 [10, 20, 30]).len ≤ 10 ∧
    (Fixed.mk 0 [10, 20, 30]).get 10 = some 30 := by
  decide

/-- C2 amended: `get index` is rejected (panics) exactly when the wrapped
index `(first + index) &&& len` falls outside the storage; out-of-range
logical indices are not uniformly trapped and may silently resolve. -/
theorem get_eq_none_iff (rb : Fixed α) (index : Nat) :
    rb.get index = none ↔ rb.len ≤ (rb.first + index) &&& rb.len := by
  simp [Fixed.get, Fixed.len, List.getElem?_eq_none_iff]

/-- C6: for every pair with `first < data.length`, decomposing the
checked construction with `into_raw_parts` returns the identical pair. -/
theorem from_raw_parts_into_raw_parts (first : Nat) (data : List α)
    (h : first < data.length) :
    (Fixed.from_raw_parts first data).map Fixed.into_raw_parts = some (first, data) := by
  simp [Fixed.from_raw_parts, Fixed.into_raw_parts, h]

/-- C6 witness at `first = 1`, `data = [5, 6, 7]`. -/
theorem from_raw_parts_into_raw_parts_witness :
    (Fixed.from_raw_parts 1 [5, 6, 7]).map Fixed.into_raw_parts = some (1, [5, 6, 7]) :=
  from_raw_parts_into_raw_parts 1 [5, 6, 7] (by decide)

/-- C7: the checked constructor `from_raw_parts` is rejected (the
assertion panics) precisely when `first ≥ data.length`; consequently the
`From` path on zero-length storage is rejected. -/
theorem from_raw_parts_rejects_iff (α : Type) :
    (∀ (first : Nat) (data : List α),
      Fixed.from_raw_parts first data = none ↔ data.length ≤ first) ∧
    Fixed.from_data ([] : List α) = none := by
  constructor
  · intro f d
    unfold Fixed.from_raw_parts
    split
    · simp
      omega
    · simp
      omega
  · rfl

/-- C8: under the cursor invariant `first < len`, the unchecked in-place
replacement in `push` stays within the bounds of the storage slice:
`push` never hits undefined behavior and always completes. -/
theorem push_in_bounds (rb : Fixed α) (item : α) (h : rb.first < rb.len) :
    (rb.push item).isSome := by
  have h' : rb.first < rb.data.length := h
  simp [Fixed.push, List.getElem?_eq_getElem h']

/-- C8 witness at `first = 0`, `data = [1, 2, 3]`. -/
theorem push_in_bounds_witness :
    ((Fixed.mk 0 [1, 2, 3]).push 9).isSome :=
  push_in_bounds (Fixed.mk 0 [1, 2, 3]) 9 (by decide)

/-- C10: the invariant `first < len` (with `len` unchanged) is
established by the checked constructor, preserved by `push`, and
re-established by `set_first` (which sets `first = index % len`) for
every input index. -/
theorem invariant_preserved (α : Type) :
    (∀ (first : Nat) (data : List α) (rb : Fixed α),
      Fixed.from_raw_parts first data = some rb → rb.first < rb.len) ∧
    (∀ (rb : Fixed α) (item old : α) (rb1 : Fixed α),
      rb.first < rb.len → rb.push item = some (old, rb1) →
      rb1.first < rb1.len ∧ rb1.len = rb.len) ∧
    (∀ (rb : Fixed α) (index : Nat) (rb1 : Fixed α),
      0 < rb.len → rb.set_first index = some rb1 →
      rb1.first = index % rb.len ∧ rb1.first < rb1.len ∧ rb1.len = rb.len) := by
  refine ⟨?_, ?_, ?_⟩
  · intro f d rb h
    unfold Fixed.from_raw_parts at h
    split at h
    · cases h
      assumption
    · cases h
  · intro rb item old rb1 h hp
    have h' : rb.first < rb.data.length := h
    simp [Fixed.push, List.getElem?_eq_getElem h'] at hp
    obtain ⟨-, hrb1⟩ := hp
    subst hrb1
    refine ⟨?_, ?_⟩
    · simp [Fixed.len]
      split
      · omega
      · simp [Fixed.len] at h
        omega
    · simp [Fixed.len]
  · intro rb index rb1 h hs
    unfold Fixed.set_first at hs
    split at hs
    · cases hs
    · cases hs
      exact ⟨rfl, Nat.mod_lt _ h, rfl⟩

/-- C10 witness: the three parts applied at concrete states. -/
theorem invariant_preserved_witness :
    (Fixed.mk 1 [5, 6, 7]).first < (Fixed.mk 1 [5, 6, 7]).len ∧
    ((Fixed.mk 2 [5, 9, 7]).first < (Fixed.mk 2 [5, 9, 7]).len ∧
      (Fixed.mk 2 [5, 9, 7]).len = (Fixed.mk 1 [5, 6, 7]).len) ∧
    ((Fixed.mk 1 [5, 6, 7]).first = 7 % (Fixed.mk 1 [5, 6, 7]).len ∧
      (Fixed.mk 1 [5, 6, 7]).first < (Fixed.mk 1 [5, 6, 7]).len ∧
      (Fixed.mk 1 [5, 6, 7]).len = (Fixed.mk 1 [5, 6, 7]).len) :=
  ⟨(invariant_preserved Nat).1 1 [5, 6, 7] (Fixed.mk 1 [5, 6, 7]) (by decide),
   (invariant_preserved Nat).2.1 (Fixed.mk 1 [5, 6, 7]) 9 6 (Fixed.mk 2 [5, 9, 7])
     (by decide) (by decide),
   (invariant_preserved Nat).2.2 (Fixed.mk 1 [5, 6, 7]) 7 (Fixed.mk 1 [5, 6, 7])
     (by decide) (by decide)⟩

